import Mathlib

/-!
Shallow embedding of `chr.py` (ConsistentHashRing / SubTree).

A Python `SubTree` node stores `value`, `key = hash(value)` (computed once, at
construction), and optional children `left`, `right`.  We embed a node-or-None
reference as an inductive tree, `nil` standing for Python `None`.  The Python
`hash` function is an external parameter `h : α → Int` (deterministic).  Python
truthiness of a value (used by the `if best_match:` test in `find_best_match`) is a
parameter `tr : α → Bool`.  Mutating methods become pure functions returning
the new subtree; the convention of `remove_value` of returning the node that takes
the place of the removed node is kept as the function result.
-/

namespace CHR

inductive SubTree (α : Type) where
  | nil : SubTree α
  | node (value : α) (key : Int) (left right : SubTree α) : SubTree α
deriving DecidableEq, Repr

namespace SubTree

variable {α : Type}

/-- Embeds `SubTree.add_child` (chr.py lines 31-55): recursively add a child with
`key = hash(value)`; equal key is a no-op; greater key goes right, smaller
left.  The Python code creates `SubTree(value)` when the relevant child is
`None`; here that is the `nil` case of the same recursion. -/
def add_child (h : α → Int) (v : α) : SubTree α → SubTree α
  | nil => node v (h v) nil nil
  | node w k l r =>
    if h v = k then node w k l r
    else if h v > k then node w k l (add_child h v r)
    else node w k (add_child h v l) r

/-- Embeds `SubTree._find_minimum_subtree_child_value` (chr.py lines 57-70) applied to
a node with value `v` and left child `l`: walk `left` links to the leftmost
node and return its value. -/
def find_minimum_subtree_child_value (v : α) : SubTree α → α
  | nil => v
  | node w _ l _ => find_minimum_subtree_child_value w l

/-- Embeds `SubTree.remove_value` (chr.py lines 88-125).  On a key match: leaf →
`None`; one child → that child; two children → the *value* of the node (and only
the value — the stored `key` field is not touched by the Python code) is
overwritten with the value of the in-order successor
(`self.right._find_minimum_subtree_child_value()`), which is then removed from
the right subtree, and the same node is returned.  On a key mismatch the code
recurses into both children.  The `nil` case is unreachable in Python (guarded
by the callers) and is a no-op here. -/
def remove_value (h : α → Int) (v : α) : SubTree α → SubTree α
  | nil => nil
  | node w k l r =>
    if h v = k then
      match l, r with
      | nil, nil => nil
      | nil, node rw rk rl rr => node rw rk rl rr
      | node lw lk ll lr, nil => node lw lk ll lr
      | node lw lk ll lr, node rw rk rl rr =>
        node (find_minimum_subtree_child_value rw rl) k (node lw lk ll lr)
          (remove_value h (find_minimum_subtree_child_value rw rl) (node rw rk rl rr))
    else
      node w k (remove_value h v l) (remove_value h v r)

/-- Embeds `SubTree.__contains__` (chr.py lines 133-143): membership by key
comparison, descending right on greater, left on smaller; an absent child
yields `False`. -/
def mem (h : α → Int) (v : α) : SubTree α → Bool
  | nil => false
  | node _ k l r =>
    if h v = k then true
    else if h v > k then mem h v r
    else mem h v l

/-- Embeds `SubTree.__iter__` (chr.py lines 145-155): in-order traversal of the
stored values. -/
def toList : SubTree α → List α
  | nil => []
  | node v _ l r => toList l ++ v :: toList r

/-- The in-order list of `(value, key)` pairs actually stored in the nodes
(specification-side view; the Python object holds both fields per node). -/
def entries : SubTree α → List (α × Int)
  | nil => []
  | node v k l r => entries l ++ (v, k) :: entries r

/-- The in-order list of the stored `key` fields. -/
def keys : SubTree α → List Int
  | nil => []
  | node _ k l r => keys l ++ k :: keys r

/-- The binary-search-tree invariant on the stored `key` fields: at every node
all keys of the left subtree are smaller and all keys of the right subtree are
larger. -/
def isBST : SubTree α → Bool
  | nil => true
  | node _ k l r =>
    ((keys l).all fun k2 => k2 < k) && ((keys r).all fun k2 => k < k2)
      && isBST l && isBST r

/-- States that every stored `key` field equals the hash of its stored value (true
at construction; the two-children case of `remove_value` can break it). -/
def wellKeyed (h : α → Int) : SubTree α → Bool
  | nil => true
  | node v k l r => (k = h v : Bool) && wellKeyed h l && wellKeyed h r

end SubTree

open SubTree

/-- Embeds `ConsistentHashRing.add_node` (chr.py lines 173-180): create the root when
the ring is empty, otherwise delegate to `SubTree.add_child`. -/
def add_node (h : α → Int) (v : α) : SubTree α → SubTree α
  | SubTree.nil => SubTree.node v (h v) SubTree.nil SubTree.nil
  | t => add_child h v t

/-- Embeds `ConsistentHashRing.remove_node` (chr.py lines 182-189): no-op when empty,
otherwise the root becomes `root.remove_value(value)`. -/
def remove_node (h : α → Int) (v : α) : SubTree α → SubTree α
  | SubTree.nil => SubTree.nil
  | t => remove_value h v t

/-- Embeds the `while` loop of `ConsistentHashRing.find_best_match` (chr.py lines
212-230), carrying the current `best_match` (`none` models the Python initial
`None` / `best_match_key = inf`).  An exact key match returns immediately; a
node with larger key becomes the candidate when strictly closer to the target
key than the recomputed hash of the current candidate (`best_match_key =
hash(best_match)`), and the walk continues left; a node with smaller key sends
the walk right. -/
def fbmLoop (h : α → Int) (key : Int) : SubTree α → Option α → Option α
  | SubTree.nil, best => best
  | SubTree.node w k l r, best =>
    if k = key then some w
    else if k > key then
      fbmLoop h key l
        (match best with
         | none => some w
         | some b => if |k - key| < |h b - key| then some w else some b)
    else fbmLoop h key r best

/-- Embeds `ConsistentHashRing.find_best_match` (chr.py lines 191-239): `None` on an
empty ring; otherwise run the walk and return the candidate if it is truthy
(the Python `if best_match:`), falling back to
`self.head._find_minimum_subtree_child_value()` (the leftmost value) when the
candidate is `None` or falsy. -/
def find_best_match (h : α → Int) (tr : α → Bool) (v : α) : SubTree α → Option α
  | SubTree.nil => none
  | SubTree.node w k l r =>
    match fbmLoop h (h v) (SubTree.node w k l r) none with
    | some b => if tr b then some b else some (find_minimum_subtree_child_value w l)
    | none => some (find_minimum_subtree_child_value w l)

/-- Embeds `ConsistentHashRing.__iter__` (chr.py lines 241-243), which returns
`iter(self.head)`; on an empty ring `self.head` is Python `None` and
`iter(None)` raises `TypeError`.  `none` models that raise; `some xs` the
in-order generator. -/
def ring_iter : SubTree α → Option (List α)
  | SubTree.nil => none
  | t => some (toList t)

/-- Embeds `ConsistentHashRing.__len__` (chr.py lines 248-252): `sum(1 for value in
iter(self.head))` — it also calls `iter(self.head)` and hence also raises on
an empty ring (`none`). -/
def ring_len : SubTree α → Option Nat
  | SubTree.nil => none
  | t => some (toList t).length

/-- Embeds `value in ring` at the ring level: `ConsistentHashRing` defines no
`__contains__`, so Python falls back to the `__iter__` protocol — iterate the
ring and compare each produced value for equality.  On an empty ring the
iterator itself raises (`none`). -/
def ring_contains [DecidableEq α] (v : α) : SubTree α → Option Bool
  | SubTree.nil => none
  | t => some ((toList t).contains v)

/-- Build a ring by `add_node`-ing the values of a list, in order, into an
initially empty ring. -/
def build (h : α → Int) (vs : List α) : SubTree α :=
  vs.foldl (fun t v => add_node h v t) SubTree.nil

/-- Python truthiness of an `int`: zero is falsy. -/
def intTruthy (n : Int) : Bool := n ≠ 0

/-- Note that the CPython `hash` on the small integers used by the repository tests is
the identity (the tests pointedly exclude `-1`, whose CPython hash is `-2`;
none of the inputs below is `-1`). -/
def intHash (n : Int) : Int := n


/-- C1.  The successor rule fails on the code: in the ring built from the
values `-5, 0, 5` (keys `-5 < 0 < 5` under the integer hash), a lookup whose
key `-2` lies strictly between `-5` and `0` should return the value with key
`0`; because the found candidate `0` is falsy, the `if best_match:` test in
`find_best_match` discards it and the code returns the minimum value `-5`
instead. -/
theorem find_best_match_drops_falsy_successor :
    find_best_match intHash intTruthy (-2) (build intHash [-5, 0, 5]) = some (-5) ∧
      some (-5) ≠ some (0 : Int) := by
  constructor
  · decide
  · decide

/-- C2.  Round-trip membership fails on the code: build a ring by adding
`1, 0, 2`, then remove `1`.  The removed node has two children, so
`remove_value` copies the value `2` of its successor into the node but keeps
the stored key `1`; consequently `contains(1)` is still true after
`remove(1)`, although `1` no longer appears in the traversal. -/
theorem contains_true_after_two_child_remove :
    mem intHash 1 (remove_node intHash 1 (build intHash [1, 0, 2])) = true ∧
      (1 : Int) ∉ toList (remove_node intHash 1 (build intHash [1, 0, 2])) := by
  constructor
  · decide
  · decide

/-- C3, counterexample.  The claim that the two-children case of
`remove_value` overwrites the `(value, key)` pair — and hence that every node
still satisfies `key == hash(value)` afterwards — is false: after building a
ring from `1, 0, 2` and removing `1`, the root node holds value `2` under the
old key `1`, and `hash(2) = 2 ≠ 1`. -/
theorem remove_two_child_breaks_wellKeyed :
    remove_node intHash 1 (build intHash [1, 0, 2]) =
      SubTree.node 2 1 (SubTree.node 0 0 SubTree.nil SubTree.nil) SubTree.nil ∧
      wellKeyed intHash (remove_node intHash 1 (build intHash [1, 0, 2])) = false := by
  constructor
  · decide
  · decide

/-- C3, amended.  When `remove_value` reaches a node whose key matches the
computed key and which has both children, it overwrites only that node's
*value* with the value of its in-order successor (the leftmost value of the
right subtree) — the stored key is left unchanged — recursively removes the
successor value from the right subtree, and returns the same node; the
property `key == hash(value)` at that node may therefore fail after the
removal. -/
theorem remove_two_child_copies_value_only (h : α → Int) (v w lw rw : α)
    (k lk rk : Int) (ll lr rl rr : CHR.SubTree α) (hk : h v = k) :
    remove_value h v
        (SubTree.node w k (SubTree.node lw lk ll lr) (SubTree.node rw rk rl rr)) =
      SubTree.node (find_minimum_subtree_child_value rw rl) k
        (SubTree.node lw lk ll lr)
        (remove_value h (find_minimum_subtree_child_value rw rl)
          (SubTree.node rw rk rl rr)) := by
  simp [remove_value, hk]

/-- Witness for the amended C3 theorem at a concrete input. -/
theorem remove_two_child_copies_value_only_witness :
    remove_value intHash 1
        (SubTree.node 1 1 (SubTree.node 0 0 SubTree.nil SubTree.nil)
          (SubTree.node 2 2 SubTree.nil SubTree.nil)) =
      SubTree.node (find_minimum_subtree_child_value 2 SubTree.nil) 1
        (SubTree.node 0 0 SubTree.nil SubTree.nil)
        (remove_value intHash (find_minimum_subtree_child_value 2 SubTree.nil)
          (SubTree.node 2 2 SubTree.nil SubTree.nil)) :=
  remove_two_child_copies_value_only intHash 1 1 0 2 1 0 2
    SubTree.nil SubTree.nil SubTree.nil SubTree.nil (by decide)

/-- C4.  Exact-match lookup fails on the code: after adding `1, 0, 2` and
removing `1`, the value `2` is still stored (it appears in the traversal),
yet `find_best_match(2)` walks by keys, misses the mis-keyed node holding
`2`, finds no candidate, and wraps around to the minimum value `0`. -/
theorem find_best_match_misses_value_after_remove :
    (2 : Int) ∈ toList (remove_node intHash 1 (build intHash [1, 0, 2])) ∧
      find_best_match intHash intTruthy 2
        (remove_node intHash 1 (build intHash [1, 0, 2])) = some 0 ∧
      some (0 : Int) ≠ some (2 : Int) := by
  refine ⟨?_, ?_, ?_⟩
  · decide
  · decide
  · decide

/-- C6.  The no-duplicate-keys invariant fails on the code: add `1, 0, 2`,
remove `1` (which leaves the value `2` stored under the stale key `1`), then
add `2` again.  The insertion compares against stored keys, finds no key `2`,
and inserts a second node with value `2`: the traversal becomes `[0, 2, 2]`,
with two stored values of equal computed key. -/
theorem duplicate_value_after_remove_then_add :
    toList (add_node intHash 2 (remove_node intHash 1 (build intHash [1, 0, 2]))) =
        [0, 2, 2] ∧
      ¬ List.Pairwise (fun a b => intHash a ≠ intHash b)
        (toList (add_node intHash 2 (remove_node intHash 1 (build intHash [1, 0, 2])))) := by
  constructor
  · decide
  · decide

/-- C7.  Emptiness partially fails on the code: on a freshly constructed
empty ring, `find_best_match` does return `None`, but `__iter__` returns
`iter(self.head)` with `self.head = None`, so both iteration and `len` raise
`TypeError` (modelled as `none`) instead of yielding an empty sequence and
`0`. -/
theorem empty_ring_len_iter_raise :
    ring_iter (α := Int) SubTree.nil = none ∧
      ring_len (α := Int) SubTree.nil = none ∧
      find_best_match intHash intTruthy 0 SubTree.nil = none := by
  refine ⟨rfl, rfl, rfl⟩

/-- C8, counterexample.  The claim that ring-level membership returns false on
an empty ring (and never raises there) is refuted: `value in ring` falls back
to the ring iterator, which raises `TypeError` on an empty ring (modelled as
`none`), not `some false`. -/
theorem ring_contains_raises_on_empty :
    ring_contains (0 : Int) SubTree.nil = none ∧
      (none : Option Bool) ≠ some false := by
  constructor
  · rfl
  · decide

namespace SubTree

/-- The leftmost value reached from a node with value `v` and left child `l`
is either `v` itself or a value of `l`. -/
theorem find_min_mem (v : α) (l : SubTree α) :
    find_minimum_subtree_child_value v l ∈ v :: toList l := by
  induction l generalizing v with
  | nil => simp [find_minimum_subtree_child_value]
  | node w k l2 r2 ihl ihr =>
    have h1 := ihl w
    simp only [find_minimum_subtree_child_value, toList, List.mem_cons,
      List.mem_append] at h1 ⊢
    tauto

/-- The leftmost value of a node is among its traversed values. -/
theorem find_min_mem_toList (w : α) (k : Int) (l r : SubTree α) :
    find_minimum_subtree_child_value w l ∈ toList (node w k l r) := by
  have h1 := find_min_mem w l
  simp only [toList, List.mem_append, List.mem_cons] at h1 ⊢
  tauto

end SubTree

/-- Whatever the walk of `find_best_match` returns is either a value stored in
the walked subtree or the carried-in candidate. -/
theorem fbmLoop_mem (h : α → Int) (key : Int) (t : SubTree α) :
    ∀ (best : Option α) (m : α), fbmLoop h key t best = some m →
      m ∈ toList t ∨ best = some m := by
  induction t with
  | nil =>
    intro best m hm
    right
    simpa [fbmLoop] using hm
  | node w k l r ihl ihr =>
    intro best m hm
    simp only [fbmLoop] at hm
    by_cases h1 : k = key
    · rw [if_pos h1] at hm
      left
      simp only [Option.some.injEq] at hm
      simp [toList, hm]
    · rw [if_neg h1] at hm
      by_cases h2 : k > key
      · rw [if_pos h2] at hm
        rcases ihl _ m hm with hmem | hbest
        · left
          simp only [toList, List.mem_append, List.mem_cons]
          tauto
        · cases best with
          | none =>
            simp only [Option.some.injEq] at hbest
            left
            simp [toList, hbest]
          | some b =>
            by_cases h3 : |k - key| < |h b - key|
            · simp only [if_pos h3, Option.some.injEq] at hbest
              left
              simp [toList, hbest]
            · simp only [if_neg h3] at hbest
              right
              exact hbest
      · rw [if_neg h2] at hm
        rcases ihr _ m hm with hmem | hbest
        · left
          simp only [toList, List.mem_append, List.mem_cons]
          tauto
        · right
          exact hbest

/-- C10.  On a non-empty ring `find_best_match` always returns some value that
is stored in the ring (an element of its in-order traversal); it returns
`None` exactly when the ring is empty. -/
theorem find_best_match_returns_stored_value (h : α → Int) (tr : α → Bool)
    (v : α) (t : SubTree α) :
    (find_best_match h tr v t = none ↔ t = SubTree.nil) ∧
      ∀ m, find_best_match h tr v t = some m → m ∈ toList t := by
  cases t with
  | nil => simp [find_best_match]
  | node w k l r =>
    constructor
    · constructor
      · intro hnone
        exfalso
        simp only [find_best_match] at hnone
        rcases hfb : fbmLoop h (h v) (SubTree.node w k l r) none with _ | b
        · rw [hfb] at hnone
          exact Option.noConfusion hnone
        · rw [hfb] at hnone
          dsimp only at hnone
          by_cases ht : tr b
          · rw [if_pos ht] at hnone
            exact Option.noConfusion hnone
          · rw [if_neg ht] at hnone
            exact Option.noConfusion hnone
      · intro hcontra
        exact SubTree.noConfusion hcontra
    · intro m hm
      simp only [find_best_match] at hm
      rcases hfb : fbmLoop h (h v) (SubTree.node w k l r) none with _ | b
      · rw [hfb] at hm
        simp only [Option.some.injEq] at hm
        rw [← hm]
        exact find_min_mem_toList w k l r
      · rw [hfb] at hm
        dsimp only at hm
        by_cases ht : tr b
        · rw [if_pos ht] at hm
          simp only [Option.some.injEq] at hm
          rcases fbmLoop_mem h (h v) _ none m (by rw [hfb, hm]) with hmem | hb
          · exact hmem
          · exact Option.noConfusion hb
        · rw [if_neg ht] at hm
          simp only [Option.some.injEq] at hm
          rw [← hm]
          exact find_min_mem_toList w k l r

/-- Witness for C10 at a concrete input: on the ring built from `1, 0, 2`, a
lookup of `5` returns `0`, which is indeed stored. -/
theorem find_best_match_returns_stored_value_witness :
    (0 : Int) ∈ toList (build intHash [1, 0, 2]) :=
  (find_best_match_returns_stored_value intHash intTruthy 5
    (build intHash [1, 0, 2])).2 0 (by decide)


namespace SubTree

/-- The leftmost `(value, key)` pair below a node with value `v`, key `k` and
left child `l` (specification-side companion of
`find_minimum_subtree_child_value`, keeping the key). -/
def minEntry (v : α) (k : Int) : SubTree α → α × Int
  | nil => (v, k)
  | node w k2 l _ => minEntry w k2 l

/-- The value component of the leftmost entry is exactly what
`_find_minimum_subtree_child_value` returns. -/
theorem minEntry_fst (v : α) (k : Int) (l : SubTree α) :
    (minEntry v k l).1 = find_minimum_subtree_child_value v l := by
  induction l generalizing v k with
  | nil => rfl
  | node w k2 l2 r2 ihl ihr => exact ihl w k2

/-- The leftmost entry is either the entry of the node itself or an entry of
its left subtree. -/
theorem minEntry_mem (v : α) (k : Int) (l : SubTree α) :
    minEntry v k l ∈ (v, k) :: entries l := by
  induction l generalizing v k with
  | nil => simp [minEntry]
  | node w k2 l2 r2 ihl ihr =>
    have h1 := ihl w k2
    simp only [minEntry, entries, List.mem_cons, List.mem_append] at h1 ⊢
    tauto

/-- Under the BST invariant, the key of the leftmost entry is a lower bound:
it is at most the key of the node itself and at most every key of the left
subtree. -/
theorem minEntry_le (v : α) (k : Int) (l : SubTree α) :
    isBST l = true → (∀ k2 ∈ keys l, k2 < k) →
      (minEntry v k l).2 ≤ k ∧ ∀ k2 ∈ keys l, (minEntry v k l).2 ≤ k2 := by
  induction l generalizing v k with
  | nil =>
    intro _ _
    exact ⟨le_refl k, by simp [keys]⟩
  | node w k2 l2 r2 ihl ihr =>
    intro hbst hlt
    simp only [isBST, Bool.and_eq_true, List.all_eq_true, decide_eq_true_eq] at hbst
    obtain ⟨⟨⟨hl2lt, hr2gt⟩, hbl2⟩, hbr2⟩ := hbst
    have hk2k : k2 < k := hlt k2 (by simp [keys])
    have ih := ihl w k2 hbl2 hl2lt
    constructor
    · exact le_trans ih.1 (le_of_lt hk2k)
    · intro x hx
      simp only [keys, List.mem_append, List.mem_cons] at hx
      rcases hx with hx | hx | hx
      · exact ih.2 x hx
      · rw [hx]; exact ih.1
      · exact le_trans ih.1 (le_of_lt (hr2gt x hx))

end SubTree

/-- If every stored key is smaller than the target key, the walk of
`find_best_match` never finds a candidate and returns whatever candidate it
started with. -/
theorem fbmLoop_all_lt (h : α → Int) (key : Int) (t : SubTree α) :
    ∀ best, (∀ k2 ∈ keys t, k2 < key) → fbmLoop h key t best = best := by
  induction t with
  | nil => intro best _; rfl
  | node w k l r ihl ihr =>
    intro best hlt
    have hk : k < key := hlt k (by simp [keys])
    have h1 : ¬ k = key := ne_of_lt hk
    have h2 : ¬ k > key := not_lt_of_gt hk
    simp only [fbmLoop, if_neg h1, if_neg h2]
    exact ihr best fun k2 hk2 =>
      hlt k2 (by simp only [keys, List.mem_append, List.mem_cons]; tauto)

/-- C5.  Wraparound rule: on any non-empty ring satisfying the BST invariant
on its stored keys, a lookup whose computed key is strictly greater than every
stored key returns the value of the minimum-key entry: `find_best_match`
yields the leftmost stored value, that value is stored paired with its key,
and that key is at most every stored key. -/
theorem wraparound_returns_minimum_key_value (h : α → Int) (tr : α → Bool)
    (v w : α) (k : Int) (l r : SubTree α)
    (hbst : isBST (SubTree.node w k l r) = true)
    (hgt : ∀ k2 ∈ keys (SubTree.node w k l r), k2 < h v) :
    find_best_match h tr v (SubTree.node w k l r) = some (minEntry w k l).1 ∧
      minEntry w k l ∈ entries (SubTree.node w k l r) ∧
      ∀ k2 ∈ keys (SubTree.node w k l r), (minEntry w k l).2 ≤ k2 := by
  simp only [isBST, Bool.and_eq_true, List.all_eq_true, decide_eq_true_eq] at hbst
  obtain ⟨⟨⟨hllt, hrgt⟩, hbl⟩, hbr⟩ := hbst
  refine ⟨?_, ?_, ?_⟩
  · have hnone := fbmLoop_all_lt h (h v) (SubTree.node w k l r) none hgt
    simp only [find_best_match, hnone, minEntry_fst]
  · have h1 := minEntry_mem w k l
    simp only [entries, List.mem_cons, List.mem_append] at h1 ⊢
    tauto
  · have hle := minEntry_le w k l hbl hllt
    intro x hx
    simp only [keys, List.mem_append, List.mem_cons] at hx
    rcases hx with hx | hx | hx
    · exact hle.2 x hx
    · rw [hx]; exact hle.1
    · exact le_trans hle.1 (le_of_lt (hrgt x hx))

/-- Witness for C5 at a concrete input: the ring built from `1, 0, 2` with a
lookup of key `5` (greater than every stored key) returns the minimum-key
value `0`. -/
theorem wraparound_returns_minimum_key_value_witness :
    find_best_match intHash intTruthy 5
        (SubTree.node (1 : Int) 1 (SubTree.node 0 0 SubTree.nil SubTree.nil)
          (SubTree.node 2 2 SubTree.nil SubTree.nil)) =
      some (minEntry (1 : Int) 1 (SubTree.node 0 0 SubTree.nil SubTree.nil)).1 ∧
      minEntry (1 : Int) 1 (SubTree.node 0 0 SubTree.nil SubTree.nil) ∈
        entries (SubTree.node (1 : Int) 1 (SubTree.node 0 0 SubTree.nil SubTree.nil)
          (SubTree.node 2 2 SubTree.nil SubTree.nil)) ∧
      ∀ k2 ∈ keys (SubTree.node (1 : Int) 1 (SubTree.node 0 0 SubTree.nil SubTree.nil)
          (SubTree.node 2 2 SubTree.nil SubTree.nil)),
        (minEntry (1 : Int) 1 (SubTree.node 0 0 SubTree.nil SubTree.nil)).2 ≤ k2 :=
  wraparound_returns_minimum_key_value intHash intTruthy 5 1 1
    (SubTree.node 0 0 SubTree.nil SubTree.nil)
    (SubTree.node 2 2 SubTree.nil SubTree.nil) (by decide) (by decide)


namespace SubTree

/-- Inserting a value can only add its computed key to the stored key set:
a key is stored after `add_child` iff it is the new key or was already
stored. -/
theorem mem_keys_add_child (h : α → Int) (v : α) (t : SubTree α) (x : Int) :
    x ∈ keys (add_child h v t) ↔ x = h v ∨ x ∈ keys t := by
  induction t with
  | nil => simp [add_child, keys]
  | node w k l r ihl ihr =>
    by_cases h1 : h v = k
    · subst h1
      simp only [add_child, if_pos rfl, keys, List.mem_append, List.mem_cons]
      tauto
    · by_cases h2 : h v > k
      · simp only [add_child, if_neg h1, if_pos h2, keys, List.mem_append,
          List.mem_cons, ihr]
        tauto
      · simp only [add_child, if_neg h1, if_neg h2, keys, List.mem_append,
          List.mem_cons, ihl]
        tauto

/-- Inserting a value whose key is not yet stored prepends exactly that value
to the stored values, up to permutation. -/
theorem toList_add_child_perm (h : α → Int) (v : α) (t : SubTree α) :
    h v ∉ keys t → (toList (add_child h v t)).Perm (v :: toList t) := by
  induction t with
  | nil => intro _; simp [add_child, toList]
  | node w k l r ihl ihr =>
    intro hfresh
    simp only [keys, List.mem_append, List.mem_cons] at hfresh
    push_neg at hfresh
    obtain ⟨hfl, hfk, hfr⟩ := hfresh
    by_cases h2 : h v > k
    · simp only [add_child, if_neg hfk, if_pos h2, toList]
      have ih := ihr hfr
      refine List.Perm.trans ((ih.cons w).append_left (toList l)) ?_
      have e1 : toList l ++ w :: v :: toList r = (toList l ++ [w]) ++ v :: toList r := by
        simp
      rw [e1]
      refine List.Perm.trans List.perm_middle ?_
      rw [List.append_assoc]
      exact List.Perm.refl _
    · simp only [add_child, if_neg hfk, if_neg h2, toList]
      have ih := ihl hfl
      simpa using ih.append_right (w :: toList r)

/-- Insertion preserves the BST invariant on the stored keys. -/
theorem isBST_add_child (h : α → Int) (v : α) (t : SubTree α) :
    isBST t = true → isBST (add_child h v t) = true := by
  induction t with
  | nil => intro _; rfl
  | node w k l r ihl ihr =>
    intro hbst
    by_cases h1 : h v = k
    · simpa only [add_child, if_pos h1] using hbst
    · simp only [isBST, Bool.and_eq_true, List.all_eq_true, decide_eq_true_eq]
        at hbst
      obtain ⟨⟨⟨hllt, hrgt⟩, hbl⟩, hbr⟩ := hbst
      by_cases h2 : h v > k
      · simp only [add_child, if_neg h1, if_pos h2, isBST, Bool.and_eq_true,
          List.all_eq_true, decide_eq_true_eq]
        refine ⟨⟨⟨hllt, ?_⟩, hbl⟩, ihr hbr⟩
        intro x hx
        rcases (mem_keys_add_child h v r x).1 hx with hx2 | hx2
        · rw [hx2]; exact h2
        · exact hrgt x hx2
      · simp only [add_child, if_neg h1, if_neg h2, isBST, Bool.and_eq_true,
          List.all_eq_true, decide_eq_true_eq]
        refine ⟨⟨⟨?_, hrgt⟩, ihl hbl⟩, hbr⟩
        intro x hx
        rcases (mem_keys_add_child h v l x).1 hx with hx2 | hx2
        · rw [hx2]
          rcases lt_or_gt_of_ne (fun he => h1 he) with hlt | hgt
          · exact hlt
          · exact absurd hgt h2
        · exact hllt x hx2

/-- Insertion preserves well-keyedness: every created node stores
`key = hash(value)`. -/
theorem wellKeyed_add_child (h : α → Int) (v : α) (t : SubTree α) :
    wellKeyed h t = true → wellKeyed h (add_child h v t) = true := by
  induction t with
  | nil => intro _; simp [add_child, wellKeyed]
  | node w k l r ihl ihr =>
    intro hwk
    by_cases h1 : h v = k
    · simpa only [add_child, if_pos h1] using hwk
    · simp only [wellKeyed, Bool.and_eq_true] at hwk
      obtain ⟨⟨hkw, hwl⟩, hwr⟩ := hwk
      by_cases h2 : h v > k
      · simp only [add_child, if_neg h1, if_pos h2, wellKeyed, Bool.and_eq_true]
        exact ⟨⟨hkw, hwl⟩, ihr hwr⟩
      · simp only [add_child, if_neg h1, if_neg h2, wellKeyed, Bool.and_eq_true]
        exact ⟨⟨hkw, ihl hwl⟩, hwr⟩

/-- In a well-keyed tree the stored keys are exactly the hashes of the
traversed values, in order. -/
theorem keys_eq_map (h : α → Int) (t : SubTree α) :
    wellKeyed h t = true → keys t = (toList t).map h := by
  induction t with
  | nil => intro _; rfl
  | node w k l r ihl ihr =>
    intro hwk
    simp only [wellKeyed, Bool.and_eq_true, decide_eq_true_eq] at hwk
    obtain ⟨⟨hkw, hwl⟩, hwr⟩ := hwk
    simp [keys, toList, ihl hwl, ihr hwr, hkw]

/-- In a well-keyed tree satisfying the BST invariant, the in-order traversal
is strictly increasing in the hash of the values. -/
theorem toList_pairwise (h : α → Int) (t : SubTree α) :
    isBST t = true → wellKeyed h t = true →
      (toList t).Pairwise fun a b => h a < h b := by
  induction t with
  | nil => intro _ _; simp [toList]
  | node w k l r ihl ihr =>
    intro hbst hwk
    simp only [isBST, Bool.and_eq_true, List.all_eq_true, decide_eq_true_eq]
      at hbst
    obtain ⟨⟨⟨hllt, hrgt⟩, hbl⟩, hbr⟩ := hbst
    simp only [wellKeyed, Bool.and_eq_true, decide_eq_true_eq] at hwk
    obtain ⟨⟨hkw, hwl⟩, hwr⟩ := hwk
    have hmapl : ∀ a ∈ toList l, h a < k := by
      intro a ha
      exact hllt (h a) (by rw [keys_eq_map h l hwl]; exact List.mem_map_of_mem h ha)
    have hmapr : ∀ b ∈ toList r, k < h b := by
      intro b hb
      exact hrgt (h b) (by rw [keys_eq_map h r hwr]; exact List.mem_map_of_mem h hb)
    simp only [toList, List.pairwise_append, List.pairwise_cons]
    refine ⟨ihl hbl hwl, ⟨fun b hb => ?_, ihr hbr hwr⟩, fun a ha b hb => ?_⟩
    · rw [← hkw]; exact hmapr b hb
    · rcases List.mem_cons.1 hb with hb2 | hb2
      · rw [hb2, ← hkw]; exact hmapl a ha
      · exact lt_trans (hmapl a ha) (hmapr b hb2)

end SubTree

/-- Folding `add_node` over a list of values with pairwise-distinct, fresh
hashes preserves the BST invariant and well-keyedness and accumulates exactly
the added values, up to permutation. -/
theorem build_aux (h : α → Int) (vs : List α) :
    ∀ t : SubTree α, isBST t = true → wellKeyed h t = true →
      vs.Pairwise (fun a b => h a ≠ h b) → (∀ v ∈ vs, h v ∉ keys t) →
      isBST (vs.foldl (fun t2 v => add_node h v t2) t) = true ∧
        wellKeyed h (vs.foldl (fun t2 v => add_node h v t2) t) = true ∧
        (toList (vs.foldl (fun t2 v => add_node h v t2) t)).Perm (vs ++ toList t) := by
  induction vs with
  | nil =>
    intro t hbst hwk _ _
    exact ⟨hbst, hwk, by simp⟩
  | cons v vs ih =>
    intro t hbst hwk hdist hfresh
    rw [List.foldl_cons]
    have hnode : add_node h v t = add_child h v t := by cases t <;> rfl
    rw [hnode]
    have hfv : h v ∉ keys t := hfresh v (by simp)
    have hne := (List.pairwise_cons.1 hdist).1
    have hdist2 := (List.pairwise_cons.1 hdist).2
    have hfresh2 : ∀ v2 ∈ vs, h v2 ∉ keys (add_child h v t) := by
      intro v2 hv2 hmem
      rcases (mem_keys_add_child h v t _).1 hmem with he | he
      · exact hne v2 hv2 he.symm
      · exact hfresh v2 (by simp [hv2]) he
    obtain ⟨ha, hb, hc⟩ := ih (add_child h v t) (isBST_add_child h v t hbst)
      (wellKeyed_add_child h v t hwk) hdist2 hfresh2
    refine ⟨ha, hb, ?_⟩
    refine hc.trans ?_
    refine List.Perm.trans ((toList_add_child_perm h v t hfv).append_left vs) ?_
    exact List.perm_middle

/-- C9.  Order preservation: for any sequence of values with pairwise-distinct
computed keys added in arbitrary order to a freshly constructed empty ring,
the in-order traversal afterwards yields exactly those values (a permutation
of them) sorted strictly increasing by computed key. -/
theorem iterate_sorted_after_adds (h : α → Int) (vs : List α)
    (hdist : vs.Pairwise fun a b => h a ≠ h b) :
    (toList (build h vs)).Perm vs ∧
      (toList (build h vs)).Pairwise fun a b => h a < h b := by
  obtain ⟨ha, hb, hc⟩ := build_aux h vs SubTree.nil rfl rfl hdist (by simp [keys])
  constructor
  · simpa [build, toList] using hc
  · simpa [build] using toList_pairwise h _ ha hb

/-- Witness for C9 at a concrete input: adding `3, 1, 2` yields a traversal
that is a permutation of them and strictly sorted by the integer hash. -/
theorem iterate_sorted_after_adds_witness :
    (toList (build intHash [3, 1, 2])).Perm [3, 1, 2] ∧
      (toList (build intHash [3, 1, 2])).Pairwise fun a b => intHash a < intHash b :=
  iterate_sorted_after_adds intHash [3, 1, 2] (by decide)


/-- C8, amended.  The ring class defines no `__contains__`, so ring-level
membership `value in ring` falls back to the iterator protocol: on an empty
ring it raises `TypeError` (modelled as `none`), and on a non-empty ring it
reports whether the value equals some value of the in-order traversal (value
equality, not the key-comparison membership test of the root node). -/
theorem ring_contains_via_iteration [DecidableEq α] (v : α) (t : SubTree α)
    (hne : t ≠ SubTree.nil) :
    (ring_contains v t = some true ↔ v ∈ toList t) ∧
      ring_contains v SubTree.nil = none := by
  refine ⟨?_, rfl⟩
  cases t with
  | nil => exact absurd rfl hne
  | node w k l r =>
    simp [ring_contains]

/-- Witness for the amended C8 theorem at a concrete input. -/
theorem ring_contains_via_iteration_witness :
    (ring_contains (5 : Int) (SubTree.node (5 : Int) 5 SubTree.nil SubTree.nil) =
          some true ↔
        (5 : Int) ∈ toList (SubTree.node (5 : Int) 5 SubTree.nil SubTree.nil)) ∧
      ring_contains (5 : Int) SubTree.nil = none :=
  ring_contains_via_iteration 5 (SubTree.node (5 : Int) 5 SubTree.nil SubTree.nil)
    (by decide)


end CHR
